import Mathlib

/-!
A shallow embedding of the ETL pipeline in `src/main.py`: the scalar
validator `is_valid_value`, the cleaning routine `clean_data`, the
inner merge producing the unified transactions, the startup
connection-retry loop, and the top-2 best-sellers aggregation query.
Python exceptions are modelled with `Except`, pandas tables as a list
of column names plus a list of rows of scalar values.
-/

namespace ETL

/-- The Python exceptions the embedded code can raise or catch. -/
inductive Exc where
  | valueError
  | typeError
  | parseError
deriving DecidableEq, Repr

/-- The result of Python float coercion. Finite values are kept as
integers (the program only meets integral literals); the special
spellings that `float` also produces from strings are explicit. -/
inductive PyNum where
  | fin : Int → PyNum
  | inf : PyNum
  | negInf : PyNum
  | nan : PyNum
deriving DecidableEq, Repr

/-- A scalar cell value: Python ints, strings, floats, `None`, and the
datetime values `pd.to_datetime` produces (a canonical integer index). -/
inductive Value where
  | vInt : Int → Value
  | vStr : String → Value
  | vFloat : PyNum → Value
  | vNone : Value
  | vDT : Int → Value
deriving DecidableEq, Repr

/-- Every character is a decimal digit. -/
def allDigits (cs : List Char) : Bool := cs.all (·.isDigit)

/-- Value of a digit run. -/
def digitsToNat (cs : List Char) : Nat :=
  cs.foldl (fun a c => a * 10 + (c.toNat - 48)) 0

/-- ASCII lowercasing of one character. -/
def lowerChar (c : Char) : Char :=
  if 'A' ≤ c ∧ c ≤ 'Z' then Char.ofNat (c.toNat + 32) else c

/-- Model of Python `float` on a string: an optional sign followed by a
nonempty digit run (integer literals; the fractional and exponent forms
`float` also accepts are not used by this program), or the special
spellings inf / infinity / nan, case-insensitively. `none` models the
`ValueError` that `float` raises on anything else. -/
def strToFloat (s : String) : Option PyNum :=
  let signed : Bool × List Char :=
    match s.data.map lowerChar with
    | '-' :: rest => (true, rest)
    | '+' :: rest => (false, rest)
    | cs => (false, cs)
  let neg := signed.1
  let core := signed.2
  if (!core.isEmpty) && allDigits core then
    let n : Int := digitsToNat core
    some (.fin (if neg then -n else n))
  else if core = [ 'i', 'n', 'f'] ∨ core = [ 'i', 'n', 'f', 'i', 'n', 'i', 't', 'y'] then
    some (if neg then .negInf else .inf)
  else if core = [ 'n', 'a', 'n'] then
    some .nan
  else
    none

/-- Python `float(value)` on a scalar: numbers coerce to themselves,
strings are parsed (a failure is a `ValueError`), while `None` and
datetime arguments raise `TypeError`. -/
def pyFloat : Value → Except Exc PyNum
  | .vInt n => .ok (.fin n)
  | .vFloat x => .ok x
  | .vStr s =>
    match strToFloat s with
    | some x => .ok x
    | none => .error .valueError
  | .vNone => .error .typeError
  | .vDT _ => .error .typeError

/-- Python `x > 0` on a float value; `nan > 0` is false. -/
def pyGtZero : PyNum → Bool
  | .fin n => decide (0 < n)
  | .inf => true
  | .negInf => false
  | .nan => false

/-- `is_valid_value` from src/main.py:
`try: val = float(value); return val > 0; except ValueError: return False`.
Only `ValueError` is caught; any other exception (such as the `TypeError`
raised by `float(None)`) propagates to the caller. -/
def is_valid_value (v : Value) : Except Exc Bool :=
  match pyFloat v with
  | .ok x => .ok (pyGtZero x)
  | .error .valueError => .ok false
  | .error e => .error e

/-- The argument is a number or a string, the scalars on which `float`
can only succeed or raise `ValueError`. -/
def numOrStr : Value → Bool
  | .vInt _ => true
  | .vStr _ => true
  | .vFloat _ => true
  | _ => false

/-- A nonempty all-digit character run as a number. -/
def parseNat (cs : List Char) : Option Nat :=
  if (!cs.isEmpty) && allDigits cs then some (digitsToNat cs)
  else none

/-- Split a character list at every occurrence of a separator. -/
def splitOnChar (sep : Char) : List Char → List (List Char)
  | [] => [[]]
  | c :: cs =>
    match splitOnChar sep cs with
    | [] => if c = sep then [[], []] else [[c]]
    | h :: t => if c = sep then [] :: h :: t else (c :: h) :: t

/-- A date written YYYY-MM-DD as a day index. The encoding need not be
calendar-exact; it only has to be injective on in-range dates. -/
def parseDatePart (cs : List Char) : Option Int :=
  match splitOnChar '-' cs with
  | [ys, ms, ds] => do
    let y ← parseNat ys
    let m ← parseNat ms
    let d ← parseNat ds
    if 1 ≤ m ∧ m ≤ 12 ∧ 1 ≤ d ∧ d ≤ 31 then
      some (((y * 12 + m) * 31 + d : Nat) : Int)
    else none
  | _ => none

/-- A time of day written HH:MM:SS as a second count. -/
def parseTimePart (cs : List Char) : Option Int :=
  match splitOnChar ':' cs with
  | [hs, ms, ss] => do
    let h ← parseNat hs
    let m ← parseNat ms
    let sec ← parseNat ss
    if h ≤ 23 ∧ m ≤ 59 ∧ sec ≤ 59 then
      some ((h * 3600 + m * 60 + sec : Nat) : Int)
    else none
  | _ => none

/-- Model of `pd.to_datetime` on one string: a date, optionally followed
by a time of day. A bare date denotes midnight, so the strings
"2020-01-01" and "2020-01-01 00:00:00" coerce to the same canonical
datetime, exactly as pandas collapses them. -/
def parseDT (s : String) : Option Int :=
  match splitOnChar ' ' s.data with
  | [d] => (parseDatePart d).map (· * 86400)
  | [d, t] => do
    let dd ← parseDatePart d
    let tt ← parseTimePart t
    some (dd * 86400 + tt)
  | _ => none

/-- `pd.to_datetime` on one cell: datetimes pass through unchanged,
strings are parsed (a failure is the fatal `ParseError`), integers are
read as epoch offsets, and a missing value stays missing (NaT). -/
def toDatetime : Value → Except Exc Value
  | .vDT d => .ok (.vDT d)
  | .vStr s =>
    match parseDT s with
    | some d => .ok (.vDT d)
    | none => .error .parseError
  | .vInt n => .ok (.vDT n)
  | .vNone => .ok .vNone
  | .vFloat x =>
    match x with
    | .fin n => .ok (.vDT n)
    | _ => .error .parseError

/-- An in-memory pandas DataFrame: column labels and rows of cells,
each row aligned with the labels by position. -/
structure Table where
  cols : List String
  rows : List (List Value)
deriving DecidableEq, Repr

/-- Index of the first column carrying the given label. -/
def colIdx : List String → String → Option Nat
  | [], _ => none
  | c :: cs, d => if c = d then some 0 else (colIdx cs d).map (· + 1)

/-- The cell of a row at a column index; absent cells read as `None`. -/
def cell : List Value → Nat → Value
  | [], _ => .vNone
  | v :: _, 0 => v
  | _ :: vs, i + 1 => cell vs i

/-- `drop_duplicates` generalised: remove elements equal to an earlier
one, keeping the first occurrence; `seen` holds what was already kept. -/
def dedupKeep {α : Type} [DecidableEq α] (seen : List α) : List α → List α
  | [] => []
  | x :: xs =>
    if x ∈ seen then dedupKeep seen xs else x :: dedupKeep (x :: seen) xs

/-- Map a fallible function over a list, stopping at the first error. -/
def mapE {α : Type} (f : α → Except Exc α) : List α → Except Exc (List α)
  | [] => .ok []
  | x :: xs =>
    match f x with
    | .error e => .error e
    | .ok y =>
      match mapE f xs with
      | .error e => .error e
      | .ok ys => .ok (y :: ys)

/-- Filter by a fallible predicate, stopping at the first error. -/
def filterE {α : Type} (p : α → Except Exc Bool) : List α → Except Exc (List α)
  | [] => .ok []
  | x :: xs =>
    match p x with
    | .error e => .error e
    | .ok b =>
      match filterE p xs with
      | .error e => .error e
      | .ok ys => .ok (if b then x :: ys else ys)

/-- The boolean a fallible predicate yields when it does not raise. -/
def passes {α : Type} (p : α → Except Exc Bool) (x : α) : Bool :=
  match p x with
  | .ok b => b
  | .error _ => false

/-- Timestamp normalization of one row: coerce the cell in column `i`. -/
def normTs (i : Nat) (r : List Value) : Except Exc (List Value) :=
  match toDatetime (cell r i) with
  | .ok w => .ok (r.set i w)
  | .error e => .error e

/-- Apply `pd.to_datetime` to the `timestamp` column when present. -/
def tsStep (cols : List String) (rows : List (List Value)) :
    Except Exc (List (List Value)) :=
  match colIdx cols "timestamp" with
  | some i => mapE (normTs i) rows
  | none => .ok rows

/-- Keep the rows whose `price` cell passes `is_valid_value`, when that
column is present; an exception from `is_valid_value` propagates. -/
def priceStep (cols : List String) (rows : List (List Value)) :
    Except Exc (List (List Value)) :=
  match colIdx cols "price" with
  | some i => filterE (fun r => is_valid_value (cell r i)) rows
  | none => .ok rows

/-- `clean_data` from src/main.py: drop duplicate rows first, then
coerce the `timestamp` column when present, then filter on a valid
`price` when present. An error aborts the cleaning with no partial
table. -/
def clean_data (t : Table) : Except Exc Table :=
  match tsStep t.cols (dedupKeep [] t.rows) with
  | .error e => .error e
  | .ok rows1 =>
    match priceStep t.cols rows1 with
    | .error e => .error e
    | .ok rows2 => .ok ⟨t.cols, rows2⟩

/-- Column labels of `DataFrame.merge(..., on="product_id")`: left
columns keep their names unless the right table also carries them (then
suffix "_x"); the right key column disappears; the remaining right
columns get suffix "_y" when they clash with a left column. -/
def mergeCols (lc rc : List String) : List String :=
  lc.map (fun c => if c ≠ "product_id" ∧ c ∈ rc then c ++ "_x" else c) ++
    (rc.filter (fun c => !(c == "product_id"))).map
      (fun c => if c ∈ lc then c ++ "_y" else c)

/-- Rows of the inner merge: each left row paired with every right row
carrying the same product identifier, the right key cell dropped. -/
def mergeRows (il ir : Nat) (ls rs : List (List Value)) : List (List Value) :=
  ls.flatMap (fun l =>
    (rs.filter (fun r => cell r ir == cell l il)).map
      (fun r => l ++ r.eraseIdx ir))

/-- The merge step of src/main.py:
`clean_customer_txn_df.merge(clean_product_cat_df, on="product_id", how="inner")`.
`none` models the KeyError pandas raises when a side lacks the key. -/
def merge_data (tl tr : Table) : Option Table :=
  match colIdx tl.cols "product_id", colIdx tr.cols "product_id" with
  | some il, some ir =>
    some ⟨mergeCols tl.cols tr.cols, mergeRows il ir tl.rows tr.rows⟩
  | _, _ => none

/-- One run of the startup retry loop of src/main.py (`while True: try
connect / break / except OperationalError: time.sleep(5)`), the
environment abstracted as the success outcome of each numbered attempt.
`fuel` bounds the unrolling of the unbounded loop; the value returned
on success is the total time slept before the connection was obtained. -/
def connectLoop (outcome : Nat → Bool) (slept : Nat) (i : Nat) :
    Nat → Option Nat
  | 0 => none
  | fuel + 1 =>
    if outcome i then some slept
    else connectLoop outcome (slept + 5) (i + 1) fuel

/-- One row of `curate.unified_transactions` as the top-2 query reads
it: product identifier, product name, quantity sold. -/
structure URow where
  product_id : Int
  product_name : String
  quantity : Int
deriving DecidableEq, Repr

/-- SUM(quantity) over the rows carrying one (product_id, product_name)
key. -/
def sumQty (rows : List URow) (k : Int × String) : Int :=
  ((rows.filter (fun r => (r.product_id, r.product_name) == k)).map
    (fun r => r.quantity)).sum

/-- GROUP BY (product_id, product_name) with SUM(quantity): one group
per distinct key, each carrying the sum of the quantities of its rows. -/
def groupSums (rows : List URow) : List ((Int × String) × Int) :=
  (dedupKeep [] (rows.map (fun r => (r.product_id, r.product_name)))).map
    (fun k => (k, sumQty rows k))

/-- ORDER BY total_sold DESC, as a relation on the grouped rows. -/
def sumGE (a b : (Int × String) × Int) : Prop := b.2 ≤ a.2

instance : DecidableRel sumGE := fun a b => inferInstanceAs (Decidable (b.2 ≤ a.2))

instance : IsTotal ((Int × String) × Int) sumGE := ⟨fun a b => le_total b.2 a.2⟩

instance : IsTrans ((Int × String) × Int) sumGE :=
  ⟨fun _ _ _ h1 h2 => le_trans h2 h1⟩

/-- The top-2 best-sellers query of src/main.py over the unified rows:
GROUP BY (product_id, product_name), SUM(quantity) AS total_sold,
ORDER BY total_sold DESC, LIMIT 2. -/
def top_2_selling (rows : List URow) : List ((Int × String) × Int) :=
  (List.insertionSort sumGE (groupSums rows)).take 2

end ETL

deriving instance DecidableEq for Except

namespace ETL

/-! ### Lemmas about the generic list machinery -/

theorem mem_dedupKeep {α : Type} [DecidableEq α] (seen l : List α) (x : α) :
    x ∈ dedupKeep seen l ↔ x ∈ l ∧ x ∉ seen := by
  induction l generalizing seen with
  | nil => simp [dedupKeep]
  | cons a as ih =>
    simp only [dedupKeep]
    by_cases h : a ∈ seen
    · rw [if_pos h, ih]
      constructor
      · rintro ⟨hx, hns⟩
        exact ⟨List.mem_cons_of_mem a hx, hns⟩
      · rintro ⟨hx, hns⟩
        rcases List.mem_cons.mp hx with rfl | hx2
        · exact absurd h hns
        · exact ⟨hx2, hns⟩
    · rw [if_neg h]
      constructor
      · intro hx
        rcases List.mem_cons.mp hx with rfl | hx2
        · exact ⟨List.mem_cons_self x as, h⟩
        · obtain ⟨h1, h2⟩ := (ih (a :: seen)).mp hx2
          exact ⟨List.mem_cons_of_mem a h1,
            fun hs => h2 (List.mem_cons_of_mem a hs)⟩
      · rintro ⟨hx, hns⟩
        by_cases hxa : x = a
        · exact hxa ▸ List.mem_cons_self a _
        · rcases List.mem_cons.mp hx with rfl | hx2
          · exact absurd rfl hxa
          · refine List.mem_cons_of_mem a ((ih (a :: seen)).mpr ⟨hx2, ?_⟩)
            intro hs
            rcases List.mem_cons.mp hs with rfl | hs2
            · exact hxa rfl
            · exact hns hs2

theorem dedupKeep_nodup {α : Type} [DecidableEq α] (seen l : List α) :
    (dedupKeep seen l).Nodup := by
  induction l generalizing seen with
  | nil => simp [dedupKeep]
  | cons a as ih =>
    simp only [dedupKeep]
    by_cases h : a ∈ seen
    · rw [if_pos h]
      exact ih seen
    · rw [if_neg h]
      refine List.nodup_cons.mpr ⟨?_, ih (a :: seen)⟩
      intro hmem
      exact ((mem_dedupKeep _ _ _).mp hmem).2 (List.mem_cons_self a seen)

theorem dedupKeep_eq_self {α : Type} [DecidableEq α] (seen l : List α)
    (hnd : l.Nodup) (hdis : ∀ x ∈ l, x ∉ seen) : dedupKeep seen l = l := by
  induction l generalizing seen with
  | nil => rfl
  | cons a as ih =>
    simp only [dedupKeep]
    rw [if_neg (hdis a (List.mem_cons_self a as))]
    congr 1
    refine ih (a :: seen) (List.nodup_cons.mp hnd).2 ?_
    intro x hx hxs
    rcases List.mem_cons.mp hxs with rfl | h1
    · exact (List.nodup_cons.mp hnd).1 hx
    · exact hdis x (List.mem_cons_of_mem a hx) h1

theorem dedupKeep_sublist {α : Type} [DecidableEq α] (seen l : List α) :
    List.Sublist (dedupKeep seen l) l := by
  induction l generalizing seen with
  | nil => simp [dedupKeep]
  | cons a as ih =>
    simp only [dedupKeep]
    by_cases h : a ∈ seen
    · rw [if_pos h]
      exact (ih seen).trans (List.sublist_cons_self a as)
    · rw [if_neg h]
      exact List.Sublist.cons₂ a (ih (a :: seen))

/-- The spec's wording of deduplication, as a left fold: keep each row
the first time it is seen, appending in encounter order. -/
def dedupSpec {α : Type} [DecidableEq α] (l : List α) : List α :=
  l.foldl (fun acc x => if x ∈ acc then acc else acc ++ [x]) []

theorem dedupKeep_foldl {α : Type} [DecidableEq α] (l acc seen : List α)
    (h : ∀ x, x ∈ seen ↔ x ∈ acc) :
    l.foldl (fun acc x => if x ∈ acc then acc else acc ++ [x]) acc =
      acc ++ dedupKeep seen l := by
  induction l generalizing acc seen with
  | nil => simp [dedupKeep]
  | cons a as ih =>
    simp only [List.foldl_cons, dedupKeep]
    by_cases ha : a ∈ seen
    · rw [if_pos ((h a).mp ha), if_pos ha]
      exact ih acc seen h
    · rw [if_neg (fun hc => ha ((h a).mpr hc)), if_neg ha,
        ih (acc ++ [a]) (a :: seen) ?_]
      · simp
      · intro x
        simp only [List.mem_cons, List.mem_append, List.mem_singleton, h x]
        tauto

theorem mapE_ok_mem {α : Type} (f : α → Except Exc α) (l l2 : List α)
    (h : mapE f l = .ok l2) : ∀ y ∈ l2, ∃ x ∈ l, f x = .ok y := by
  induction l generalizing l2 with
  | nil =>
    simp only [mapE, Except.ok.injEq] at h
    subst h
    simp
  | cons a as ih =>
    simp only [mapE] at h
    cases hfa : f a with
    | error e => rw [hfa] at h; cases h
    | ok y =>
      rw [hfa] at h
      cases hrest : mapE f as with
      | error e => rw [hrest] at h; cases h
      | ok ys =>
        rw [hrest] at h
        simp only [Except.ok.injEq] at h
        subst h
        intro z hz
        rcases List.mem_cons.mp hz with rfl | hz2
        · exact ⟨a, List.mem_cons_self a as, hfa⟩
        · obtain ⟨x, hx, hfx⟩ := ih ys hrest z hz2
          exact ⟨x, List.mem_cons_of_mem a hx, hfx⟩

theorem mapE_fix {α : Type} (f : α → Except Exc α) (l : List α)
    (h : ∀ x ∈ l, f x = .ok x) : mapE f l = .ok l := by
  induction l with
  | nil => rfl
  | cons a as ih =>
    simp only [mapE]
    rw [h a (List.mem_cons_self a as),
      ih (fun x hx => h x (List.mem_cons_of_mem a hx))]

theorem mapE_error {α : Type} (f : α → Except Exc α) (l : List α) (c : Exc)
    (hcl : ∀ x ∈ l, (∃ y, f x = .ok y) ∨ f x = .error c)
    (x0 : α) (hx0 : x0 ∈ l) (hf : f x0 = .error c) : mapE f l = .error c := by
  induction l with
  | nil => cases hx0
  | cons a as ih =>
    simp only [mapE]
    rcases List.mem_cons.mp hx0 with rfl | hmem
    · rw [hf]
    · rcases hcl a (List.mem_cons_self a as) with ⟨y, hy⟩ | hy
      · rw [hy, ih (fun x hx => hcl x (List.mem_cons_of_mem a hx)) hmem]
      · rw [hy]

theorem filterE_ok_of_all {α : Type} (p : α → Except Exc Bool) (l : List α)
    (h : ∀ x ∈ l, ∃ b, p x = .ok b) :
    filterE p l = .ok (l.filter (passes p)) := by
  induction l with
  | nil => rfl
  | cons a as ih =>
    obtain ⟨b, hb⟩ := h a (List.mem_cons_self a as)
    have hp : passes p a = b := by simp [passes, hb]
    simp only [filterE, List.filter_cons, hb, hp]
    rw [ih (fun x hx => h x (List.mem_cons_of_mem a hx))]

theorem filterE_ok_mem {α : Type} (p : α → Except Exc Bool) (l l2 : List α)
    (h : filterE p l = .ok l2) : ∀ y ∈ l2, y ∈ l ∧ p y = .ok true := by
  induction l generalizing l2 with
  | nil =>
    simp only [filterE, Except.ok.injEq] at h
    subst h
    simp
  | cons a as ih =>
    simp only [filterE] at h
    cases hpa : p a with
    | error e => rw [hpa] at h; cases h
    | ok b =>
      rw [hpa] at h
      cases hrest : filterE p as with
      | error e => rw [hrest] at h; cases h
      | ok ys =>
        rw [hrest] at h
        simp only [Except.ok.injEq] at h
        cases b
        · simp only [if_neg Bool.false_ne_true] at h
          subst h
          intro y hy
          obtain ⟨h1, h2⟩ := ih ys hrest y hy
          exact ⟨List.mem_cons_of_mem a h1, h2⟩
        · simp only [if_pos rfl] at h
          subst h
          intro y hy
          rcases List.mem_cons.mp hy with rfl | hy2
          · exact ⟨List.mem_cons_self y as, hpa⟩
          · obtain ⟨h1, h2⟩ := ih ys hrest y hy2
            exact ⟨List.mem_cons_of_mem a h1, h2⟩

theorem filterE_all_true {α : Type} (p : α → Except Exc Bool) (l : List α)
    (h : ∀ x ∈ l, p x = .ok true) : filterE p l = .ok l := by
  induction l with
  | nil => rfl
  | cons a as ih =>
    simp only [filterE]
    rw [h a (List.mem_cons_self a as),
      ih (fun x hx => h x (List.mem_cons_of_mem a hx))]
    rfl

/-! ### Lemmas about rows and the timestamp step -/

theorem set_of_length_le : ∀ (l : List Value) (i : Nat) (a : Value),
    l.length ≤ i → l.set i a = l
  | [], _, _, _ => rfl
  | _ :: _, 0, _, h => by simp at h
  | b :: bs, i + 1, a, h => by
    simp only [List.set]
    rw [set_of_length_le bs i a (by simpa using h)]

theorem cell_set_self : ∀ (l : List Value) (i : Nat) (a : Value),
    i < l.length → cell (l.set i a) i = a
  | [], i, _, h => by cases h
  | _ :: _, 0, _, _ => rfl
  | b :: bs, i + 1, a, h =>
    cell_set_self bs i a (Nat.lt_of_succ_lt_succ h)

theorem cell_set_ne : ∀ (l : List Value) (i j : Nat) (a : Value),
    i ≠ j → cell (l.set i a) j = cell l j
  | [], _, _, _, _ => rfl
  | _ :: _, 0, 0, _, h => absurd rfl h
  | _ :: _, 0, _ + 1, _, _ => rfl
  | _ :: _, _ + 1, 0, _, _ => rfl
  | b :: bs, i + 1, j + 1, a, h =>
    cell_set_ne bs i j a (fun hc => h (by rw [hc]))

theorem toDatetime_idem (v w : Value) (h : toDatetime v = .ok w) :
    toDatetime w = .ok w := by
  cases v with
  | vDT d => cases h; rfl
  | vInt n => cases h; rfl
  | vNone => cases h; rfl
  | vStr s =>
    simp only [toDatetime] at h
    cases hp : parseDT s with
    | some d => rw [hp] at h; cases h; rfl
    | none => rw [hp] at h; cases h
  | vFloat x =>
    cases x with
    | fin n => cases h; rfl
    | inf => cases h
    | negInf => cases h
    | nan => cases h

theorem toDatetime_error (v : Value) (e : Exc) (h : toDatetime v = .error e) :
    e = Exc.parseError := by
  cases v with
  | vDT d => cases h
  | vInt n => cases h
  | vNone => cases h
  | vStr s =>
    simp only [toDatetime] at h
    cases hp : parseDT s with
    | some d => rw [hp] at h; cases h
    | none => rw [hp] at h; cases h; rfl
  | vFloat x =>
    cases x with
    | fin n => cases h
    | inf => cases h; rfl
    | negInf => cases h; rfl
    | nan => cases h; rfl

theorem normTs_classify (i : Nat) (r : List Value) :
    (∃ r2, normTs i r = .ok r2) ∨ normTs i r = .error Exc.parseError := by
  unfold normTs
  cases h : toDatetime (cell r i) with
  | ok w => exact Or.inl ⟨r.set i w, rfl⟩
  | error e =>
    right
    rw [toDatetime_error _ _ h]

theorem normTs_idem (i : Nat) (r r2 : List Value) (h : normTs i r = .ok r2) :
    normTs i r2 = .ok r2 := by
  unfold normTs at h ⊢
  cases hd : toDatetime (cell r i) with
  | error e => rw [hd] at h; cases h
  | ok w =>
    rw [hd] at h
    cases h
    by_cases hlen : i < r.length
    · rw [cell_set_self r i w hlen, toDatetime_idem _ _ hd]
      dsimp only
      rw [List.set_set]
    · rw [set_of_length_le r i w (Nat.le_of_not_lt hlen)] at *
      rw [hd]
      dsimp only
      rw [set_of_length_le r i w (Nat.le_of_not_lt hlen)]

/-! ### Facts about the validator -/

theorem is_valid_value_total_aux (v : Value) (h : numOrStr v = true) :
    ∃ b, is_valid_value v = .ok b := by
  cases v with
  | vInt n => exact ⟨_, rfl⟩
  | vFloat x => exact ⟨_, rfl⟩
  | vStr s =>
    cases hs : strToFloat s with
    | some x => exact ⟨pyGtZero x, by simp [is_valid_value, pyFloat, hs]⟩
    | none => exact ⟨false, by simp [is_valid_value, pyFloat, hs]⟩
  | vNone => cases h
  | vDT d => cases h

/-! ### The claims -/

/-- C1 (amended): on every numeric or string scalar, `is_valid_value`
returns a boolean and raises nothing; a non-coercible string yields
`false` through the caught `ValueError`. The original claim also
covered null/missing input, but `float(None)` raises a `TypeError`
that the `except ValueError` handler does not catch, so that error
propagates (see the counterexample). -/
theorem is_valid_value_no_raise (v : Value) (h : numOrStr v = true) :
    ∃ b, is_valid_value v = .ok b :=
  is_valid_value_total_aux v h

/-- C1 witness: the non-coercible string "abc" yields a boolean. -/
theorem is_valid_value_no_raise_apply :
    ∃ b, is_valid_value (.vStr "abc") = .ok b :=
  is_valid_value_no_raise (.vStr "abc") rfl

/-- C1 counterexample: on the null scalar, `float` raises `TypeError`,
which `is_valid_value` does not catch, so no boolean is returned. -/
theorem is_valid_value_none_raises :
    is_valid_value .vNone = .error Exc.typeError := rfl

/-- C2: `is_valid_value` returns true exactly when `float` coercion
succeeds and the coerced number is strictly greater than zero; the
spec's four examples "5", "-3", "abc" and "0" behave as stated. -/
theorem is_valid_value_pos_iff :
    (∀ v : Value, is_valid_value v = .ok true ↔
      ∃ x, pyFloat v = .ok x ∧ pyGtZero x = true) ∧
    is_valid_value (.vStr "5") = .ok true ∧
    is_valid_value (.vStr "-3") = .ok false ∧
    is_valid_value (.vStr "abc") = .ok false ∧
    is_valid_value (.vStr "0") = .ok false := by
  refine ⟨?_, by decide, by decide, by decide, by decide⟩
  intro v
  cases h : pyFloat v with
  | ok x => simp [is_valid_value, h]
  | error e => cases e <;> simp [is_valid_value, h]

/-- C10: the string "inf" (and float infinity) coerces under `float`
and compares strictly greater than zero, so it counts as a valid
positive price and a row priced "inf" survives cleaning intact. -/
theorem inf_passes_price_filter :
    is_valid_value (.vStr "inf") = .ok true ∧
    is_valid_value (.vFloat .inf) = .ok true ∧
    clean_data ⟨["price"], [[.vStr "inf"]]⟩ =
      .ok ⟨["price"], [[.vStr "inf"]]⟩ :=
  ⟨by decide, by decide, by decide⟩

/-- C6: with a `timestamp` column present, failure of `pd.to_datetime`
on any single cell of any row makes `clean_data` fail as a whole with
the `ParseError`; no partial table is produced and no row is skipped. -/
theorem clean_data_ts_fatal (T : Table) (i : Nat) (r : List Value) (e : Exc)
    (hi : colIdx T.cols "timestamp" = some i) (hr : r ∈ T.rows)
    (hf : toDatetime (cell r i) = .error e) :
    clean_data T = .error Exc.parseError := by
  have hts : tsStep T.cols (dedupKeep [] T.rows) = .error Exc.parseError := by
    unfold tsStep
    rw [hi]
    refine mapE_error _ _ _ (fun x _ => normTs_classify i x) r ?_ ?_
    · exact (mem_dedupKeep [] T.rows r).mpr ⟨hr, by simp⟩
    · unfold normTs
      rw [hf]
      dsimp only
      rw [toDatetime_error _ _ hf]
  unfold clean_data
  rw [hts]

/-- C6 witness: a one-row table whose timestamp "oops" cannot parse. -/
theorem clean_data_ts_fatal_apply :
    clean_data ⟨["timestamp"], [[.vStr "oops"]]⟩ = .error Exc.parseError :=
  clean_data_ts_fatal ⟨["timestamp"], [[.vStr "oops"]]⟩ 0 [.vStr "oops"]
    Exc.parseError (by decide) (by decide) (by decide)

/-- C4: deduplication keeps exactly the first occurrence of each
full-row value (it equals the spec's first-seen left fold), the
retained rows form a sublist of the input so relative order is
preserved, cleaning never changes the column list, and the spec's
[A, A, B] example cleans to [A, B]. -/
theorem dedup_first_occurrence :
    (∀ rows : List (List Value), dedupKeep [] rows = dedupSpec rows) ∧
    (∀ rows : List (List Value), List.Sublist (dedupKeep [] rows) rows) ∧
    (∀ (T U : Table), clean_data T = .ok U → U.cols = T.cols) ∧
    clean_data ⟨["customer_id"], [[.vInt 1], [.vInt 1], [.vInt 2]]⟩ =
      .ok ⟨["customer_id"], [[.vInt 1], [.vInt 2]]⟩ := by
  refine ⟨?_, ?_, ?_, by decide⟩
  · intro rows
    have h := dedupKeep_foldl rows ([] : List (List Value)) [] (by simp)
    simpa [dedupSpec] using h.symm
  · intro rows
    exact dedupKeep_sublist [] rows
  · intro T U h
    unfold clean_data at h
    cases hts : tsStep T.cols (dedupKeep [] T.rows) with
    | error e => rw [hts] at h; cases h
    | ok M =>
      rw [hts] at h
      dsimp only at h
      cases hps : priceStep T.cols M with
      | error e => rw [hps] at h; cases h
      | ok R =>
        rw [hps] at h
        dsimp only at h
        cases h
        rfl

/-- C3 (amended): when cleaning succeeds and the cleaned rows are
pairwise distinct (timestamp normalization did not make two retained
rows equal), cleaning a second time returns the same table unchanged.
The unconditional claim fails on the code: deduplication runs before
timestamp coercion, so two textual forms of one instant both survive
the first pass and collapse only on the second (see the
counterexample). -/
theorem clean_data_idem (T U : Table) (h : clean_data T = .ok U)
    (hnd : U.rows.Nodup) : clean_data U = .ok U := by
  unfold clean_data at h
  cases hts : tsStep T.cols (dedupKeep [] T.rows) with
  | error e => rw [hts] at h; cases h
  | ok M =>
    rw [hts] at h
    dsimp only at h
    cases hps : priceStep T.cols M with
    | error e => rw [hps] at h; cases h
    | ok R =>
      rw [hps] at h
      dsimp only at h
      cases h
      dsimp only at hnd
      have hsub : ∀ y ∈ R, y ∈ M := by
        cases hpc : colIdx T.cols "price" with
        | none =>
          unfold priceStep at hps
          rw [hpc] at hps
          dsimp only at hps
          cases hps
          exact fun y hy => hy
        | some j =>
          unfold priceStep at hps
          rw [hpc] at hps
          dsimp only at hps
          exact fun y hy => (filterE_ok_mem _ _ _ hps y hy).1
      have hded : dedupKeep [] R = R :=
        dedupKeep_eq_self [] R hnd (fun x _ => by simp)
      have hts2 : tsStep T.cols R = .ok R := by
        unfold tsStep
        cases hct : colIdx T.cols "timestamp" with
        | none => rfl
        | some i =>
          dsimp only
          refine mapE_fix _ _ ?_
          intro y hy
          unfold tsStep at hts
          rw [hct] at hts
          dsimp only at hts
          obtain ⟨x, _, hx⟩ := mapE_ok_mem _ _ _ hts y (hsub y hy)
          exact normTs_idem i x y hx
      have hps2 : priceStep T.cols R = .ok R := by
        unfold priceStep
        cases hpc : colIdx T.cols "price" with
        | none => rfl
        | some j =>
          dsimp only
          refine filterE_all_true _ _ ?_
          intro y hy
          unfold priceStep at hps
          rw [hpc] at hps
          dsimp only at hps
          exact (filterE_ok_mem _ _ _ hps y hy).2
      unfold clean_data
      dsimp only
      rw [hded, hts2]
      dsimp only
      rw [hps2]

/-- C3 witness: a table whose cleaning output has distinct rows;
cleaning that output again changes nothing. -/
theorem clean_data_idem_apply :
    clean_data ⟨["price"], [[.vInt 10]]⟩ = .ok ⟨["price"], [[.vInt 10]]⟩ :=
  clean_data_idem ⟨["price"], [[.vInt 10], [.vInt 10], [.vInt (-5)]]⟩
    ⟨["price"], [[.vInt 10]]⟩ (by decide) (by decide)

/-- A timestamp column holding one instant written two ways: a bare
date and the same date with an explicit midnight time. -/
def dupTsTable : Table :=
  ⟨["timestamp"], [[.vStr "2020-01-01"], [.vStr "2020-01-01 00:00:00"]]⟩

/-- `dupTsTable` after one cleaning pass: both rows survive
deduplication (their raw strings differ) and then coerce to the same
canonical datetime. -/
def dupTsOnce : Table :=
  ⟨["timestamp"], [[.vDT 64927180800], [.vDT 64927180800]]⟩

/-- `dupTsTable` after a second cleaning pass: the now-identical rows
collapse into one. -/
def dupTsTwice : Table := ⟨["timestamp"], [[.vDT 64927180800]]⟩

/-- C3 counterexample: cleaning succeeds on `dupTsTable`, yet a second
cleaning removes one more row, refuting unconditional idempotence. -/
theorem clean_data_not_idempotent :
    clean_data dupTsTable = .ok dupTsOnce ∧
    clean_data dupTsOnce = .ok dupTsTwice ∧
    dupTsTwice.rows.length < dupTsOnce.rows.length :=
  ⟨by decide, by decide, by decide⟩

/-- C5 (amended): with a `price` column whose cells are numbers or
strings, cleaning keeps, among the deduplicated and
timestamp-normalized rows, exactly those whose price passes
`is_valid_value`, and raises nothing. The original claim promised no
error for arbitrary tables, but a `None` price makes the filter raise
`TypeError` (see the counterexample). -/
theorem clean_data_price_filter (T : Table) (i : Nat) (M : List (List Value))
    (hp : colIdx T.cols "price" = some i)
    (hts : tsStep T.cols (dedupKeep [] T.rows) = .ok M)
    (hnum : ∀ r ∈ M, numOrStr (cell r i) = true) :
    clean_data T =
      .ok ⟨T.cols, M.filter (passes (fun r => is_valid_value (cell r i)))⟩ := by
  unfold clean_data
  rw [hts]
  dsimp only
  unfold priceStep
  rw [hp]
  dsimp only
  rw [filterE_ok_of_all _ _ (fun r hr => is_valid_value_total_aux _ (hnum r hr))]

/-- C5 witness: the spec's example rows with prices 10, -5 and "x"
clean to the single valid row. -/
theorem clean_data_price_filter_apply :
    clean_data ⟨["price"], [[.vInt 10], [.vInt (-5)], [.vStr "x"]]⟩ =
      .ok ⟨["price"], [[.vInt 10]]⟩ :=
  (clean_data_price_filter ⟨["price"], [[.vInt 10], [.vInt (-5)], [.vStr "x"]]⟩
    0 [[.vInt 10], [.vInt (-5)], [.vStr "x"]] (by decide) (by decide)
    (by decide)).trans (by decide)

/-- C5 counterexample: a `None` price cell makes cleaning raise
`TypeError` instead of silently dropping the row. -/
theorem clean_data_price_none_raises :
    clean_data ⟨["price"], [[.vNone]]⟩ = .error Exc.typeError := by decide

/-- C7: the merge of the cleaned tables is an inner join on the
product identifier. Every unified row is built from one transaction
row and one catalog row carrying the same identifier (so the
identifier exists in both inputs, and a transaction without a catalog
match contributes nothing); the row count is the sum, over the
transactions, of the number of matching catalog rows (one output row
per match); and when both inputs carry `price`, the output carries
both as `price_x` and `price_y`. -/
theorem merge_data_inner (tl tr : Table) (il ir : Nat)
    (hl : colIdx tl.cols "product_id" = some il)
    (hr : colIdx tr.cols "product_id" = some ir) :
    ∃ M, merge_data tl tr = some M ∧
      (∀ m ∈ M.rows, ∃ l ∈ tl.rows, ∃ r ∈ tr.rows,
        cell r ir = cell l il ∧ m = l ++ r.eraseIdx ir) ∧
      M.rows.length = (tl.rows.map (fun l =>
        (tr.rows.filter (fun r => cell r ir == cell l il)).length)).sum ∧
      ("price" ∈ tl.cols → "price" ∈ tr.cols →
        "price_x" ∈ M.cols ∧ "price_y" ∈ M.cols) := by
  refine ⟨⟨mergeCols tl.cols tr.cols, mergeRows il ir tl.rows tr.rows⟩,
    ?_, ?_, ?_, ?_⟩
  · unfold merge_data
    rw [hl, hr]
  · intro m hm
    simp only [mergeRows, List.mem_flatMap, List.mem_map, List.mem_filter] at hm
    obtain ⟨l, hl2, r, ⟨hr2, hkey⟩, hm2⟩ := hm
    exact ⟨l, hl2, r, hr2, by simpa using hkey, hm2.symm⟩
  · simp [mergeRows, List.length_flatMap, Function.comp_def]
  · intro hpl hpr
    constructor
    · refine List.mem_append_left _ (List.mem_map.mpr ⟨"price", hpl, ?_⟩)
      rw [if_pos ⟨by decide, hpr⟩]
      decide
    · refine List.mem_append_right _ (List.mem_map.mpr ⟨"price", ?_, ?_⟩)
      · exact List.mem_filter.mpr ⟨hpr, by decide⟩
      · rw [if_pos hpl]
        decide

/-- The cleaned transactions of the running example: products 1 and 3. -/
def txExample : Table :=
  ⟨["product_id", "price"], [[.vInt 1, .vInt 10], [.vInt 3, .vInt 7]]⟩

/-- The cleaned catalog of the running example: product 1, twice. -/
def catExample : Table :=
  ⟨["product_id", "price"], [[.vInt 1, .vInt 5], [.vInt 1, .vInt 6]]⟩

/-- C7 witness: the running example, where product 3 has no catalog
match and product 1 has two. -/
theorem merge_data_inner_apply :
    ∃ M, merge_data txExample catExample = some M ∧
      (∀ m ∈ M.rows, ∃ l ∈ txExample.rows, ∃ r ∈ catExample.rows,
        cell r 0 = cell l 0 ∧ m = l ++ r.eraseIdx 0) ∧
      M.rows.length = (txExample.rows.map (fun l =>
        (catExample.rows.filter
          (fun r => cell r 0 == cell l 0)).length)).sum ∧
      ("price" ∈ txExample.cols → "price" ∈ catExample.cols →
        "price_x" ∈ M.cols ∧ "price_y" ∈ M.cols) :=
  merge_data_inner txExample catExample 0 0 (by decide) (by decide)

/-- C8: when the first `n` connection attempts fail with the
recoverable `OperationalError` and attempt `n` (zero-based) succeeds,
the startup gate returns a connection after exactly `n` sleeps of 5
time units and surfaces no error; this holds for every `n`, so the
retrying has no ceiling and the interval never grows. -/
theorem connect_gate_retries (outcome : Nat → Bool) (n : Nat)
    (hf : ∀ k, k < n → outcome k = false) (hs : outcome n = true) :
    ∀ fuel, n < fuel → connectLoop outcome 0 0 fuel = some (5 * n) := by
  have aux : ∀ (m slept j fuel : Nat), (∀ k, k < m → outcome (j + k) = false) →
      outcome (j + m) = true → m < fuel →
      connectLoop outcome slept j fuel = some (slept + 5 * m) := by
    intro m
    induction m with
    | zero =>
      intro slept j fuel _ hs2 hlt
      cases fuel with
      | zero => omega
      | succ f =>
        simp only [connectLoop]
        rw [show j + 0 = j from rfl] at hs2
        rw [hs2]
        simp
    | succ m2 ih =>
      intro slept j fuel hf2 hs2 hlt
      cases fuel with
      | zero => omega
      | succ f =>
        simp only [connectLoop]
        have h0 : outcome j = false := by
          have := hf2 0 (Nat.succ_pos m2)
          simpa using this
        simp only [h0, Bool.false_eq_true, if_false]
        have hstep := ih (slept + 5) (j + 1) f ?_ ?_ ?_
        · rw [hstep]
          congr 1
          omega
        · intro k hk
          rw [show j + 1 + k = j + (k + 1) by omega]
          exact hf2 (k + 1) (by omega)
        · rw [show j + 1 + m2 = j + (m2 + 1) by omega]
          exact hs2
        · omega

  intro fuel hlt
  have h := aux n 0 0 fuel (by simpa using hf) (by simpa using hs) hlt
  simpa using h

/-- C8 witness: the spec's example of two failures then success —
connected after exactly two 5-unit waits. -/
theorem connect_gate_retries_apply :
    connectLoop (fun i => decide (i = 2)) 0 0 3 = some 10 := by
  have h := connect_gate_retries (fun i => decide (i = 2)) 2
    (by decide) (by decide) 3 (by decide)
  simpa using h

/-- C9: the top-2 best-sellers report keeps at most two groups, sorted
by summed quantity descending, each group's total being the sum of the
quantities of the unified rows carrying its (product identifier,
product name) key; the spec's three-row example yields
[(2, "B", 10), (1, "A", 5)] in that order. -/
theorem top_2_selling_spec :
    (∀ rows : List URow, (top_2_selling rows).length ≤ 2) ∧
    (∀ rows : List URow, List.Sorted sumGE (top_2_selling rows)) ∧
    (∀ rows : List URow, ∀ g ∈ top_2_selling rows,
      g.1 ∈ rows.map (fun r => (r.product_id, r.product_name)) ∧
        g.2 = sumQty rows g.1) ∧
    top_2_selling [⟨1, "A", 3⟩, ⟨1, "A", 2⟩, ⟨2, "B", 10⟩] =
      [((2, "B"), 10), ((1, "A"), 5)] := by
  refine ⟨?_, ?_, ?_, by decide⟩
  · intro rows
    exact List.length_take_le 2 _
  · intro rows
    exact List.Pairwise.sublist (List.take_sublist 2 _)
      (List.sorted_insertionSort sumGE (groupSums rows))
  · intro rows g hg
    have hg2 : g ∈ List.insertionSort sumGE (groupSums rows) :=
      List.mem_of_mem_take hg
    have hg3 : g ∈ groupSums rows :=
      (List.perm_insertionSort sumGE (groupSums rows)).mem_iff.mp hg2
    obtain ⟨k, hk, hgk⟩ := List.mem_map.mp hg3
    cases hgk
    exact ⟨((mem_dedupKeep _ _ k).mp hk).1, rfl⟩

end ETL
